import Mathlib

/-!
Shallow embedding of the container demonstrations of `rust-collections`
(`src/main.rs`): a growable sequence (Rust `Vec`), a growable UTF-8 text
buffer (Rust `String`), and an associative map (Rust `HashMap`), together
with theorems settling the specification claims about them.
-/

namespace RustCollections

/-! ## Growable sequence (Rust `Vec<T>`) -/

/-- Error raised by direct indexed access out of bounds (a Rust panic). -/
inductive VecError where
  | outOfRange
deriving DecidableEq

/-- Rust `Vec::push`: appends an element at the end. -/
def vecPush (v : List α) (x : α) : List α := v ++ [x]

/-- Rust `Vec::get`: optional access, `none` when out of bounds. -/
def vecGet (v : List α) (i : Nat) : Option α := v.get? i

/-- Rust indexing `&v[i]`: panics (fatal `outOfRange`) when out of bounds. -/
def vecIndex (v : List α) (i : Nat) : Except VecError α :=
  match v.get? i with
  | some x => Except.ok x
  | none => Except.error VecError.outOfRange

/-- Pushing a whole list of elements, one by one, onto a vector. -/
def vecPushAll (v : List α) (xs : List α) : List α := xs.foldl vecPush v

/-- Read-only iteration (`for i in &v`): yields the elements in order. -/
def vecIterate (v : List α) : List α := v

/-- Mutable iteration (`for i in &mut v { *i = f *i }`): updates each
element in place. -/
def vecIterateMut (v : List α) (f : α → α) : List α := v.map f

/-! ## Associative map (Rust `HashMap<K, V>`) -/

/-- Rust `HashMap::get`: lookup by key, `none` when absent. -/
def mapGet [DecidableEq K] : List (K × V) → K → Option V
  | [], _ => none
  | (k', v') :: rest, k => if k' = k then some v' else mapGet rest k

/-- Rust `HashMap::insert`: binds `k` to `v`, overwriting any existing
binding, and returns the previous value when one existed. -/
def mapInsert [DecidableEq K] : List (K × V) → K → V → Option V × List (K × V)
  | [], k, v => (none, [(k, v)])
  | (k', v') :: rest, k, v =>
    if k' = k then (some v', (k, v) :: rest)
    else ((mapInsert rest k v).1, (k', v') :: (mapInsert rest k v).2)

/-- Rust `HashMap::entry(k).or_insert(d)`: returns the existing value when
`k` is present, leaving the map unchanged; otherwise inserts `d` and
returns it. -/
def mapEntryOrInsert [DecidableEq K] : List (K × V) → K → V → V × List (K × V)
  | [], k, d => (d, [(k, d)])
  | (k', v') :: rest, k, d =>
    if k' = k then (v', (k', v') :: rest)
    else ((mapEntryOrInsert rest k d).1, (k', v') :: (mapEntryOrInsert rest k d).2)

/-! ### Map lemmas -/

theorem mapEntryOrInsert_present [DecidableEq K] :
    ∀ (m : List (K × V)) (k : K) (v d : V),
      mapGet m k = some v → mapEntryOrInsert m k d = (v, m)
  | [], k, v, d, h => by simp [mapGet] at h
  | (k', v') :: rest, k, v, d, h => by
    by_cases hk : k' = k
    · simp [mapGet, hk] at h
      simp [mapEntryOrInsert, hk, h]
    · simp [mapGet, hk] at h
      have ih := mapEntryOrInsert_present rest k v d h
      simp [mapEntryOrInsert, hk, ih]

theorem mapEntryOrInsert_absent [DecidableEq K] :
    ∀ (m : List (K × V)) (k : K) (d : V),
      mapGet m k = none →
        (mapEntryOrInsert m k d).1 = d ∧
        mapGet (mapEntryOrInsert m k d).2 k = some d
  | [], k, d, _ => by simp [mapGet, mapEntryOrInsert]
  | (k', v') :: rest, k, d, h => by
    by_cases hk : k' = k
    · simp [mapGet, hk] at h
    · simp [mapGet, hk] at h
      have ih := mapEntryOrInsert_absent rest k d h
      simp [mapEntryOrInsert, mapGet, hk, ih]

theorem mapEntryOrInsert_preserves [DecidableEq K] :
    ∀ (m : List (K × V)) (k : K) (d : V) (k' : K) (v' : V),
      mapGet m k' = some v' →
        mapGet (mapEntryOrInsert m k d).2 k' = some v'
  | [], _, _, _, _, h => by simp [mapGet] at h
  | (k₀, v₀) :: rest, k, d, k', v', h => by
    by_cases hk : k₀ = k
    · simpa [mapEntryOrInsert, hk] using h
    · by_cases hk' : k₀ = k'
      · subst hk'
        simp [mapGet] at h
        simp [mapEntryOrInsert, mapGet, hk, h]
      · simp [mapGet, hk'] at h
        have ih := mapEntryOrInsert_preserves rest k d k' v' h
        simp [mapEntryOrInsert, mapGet, hk, hk', ih]

theorem mapInsert_get_self [DecidableEq K] :
    ∀ (m : List (K × V)) (k : K) (v : V),
      mapGet (mapInsert m k v).2 k = some v
  | [], k, v => by simp [mapGet, mapInsert]
  | (k', v') :: rest, k, v => by
    by_cases hk : k' = k
    · simp [mapInsert, mapGet, hk]
    · have ih := mapInsert_get_self rest k v
      simp [mapInsert, mapGet, hk, ih]

theorem mapInsert_fst [DecidableEq K] :
    ∀ (m : List (K × V)) (k : K) (v : V),
      (mapInsert m k v).1 = mapGet m k
  | [], k, v => by simp [mapGet, mapInsert]
  | (k', v') :: rest, k, v => by
    by_cases hk : k' = k
    · simp [mapInsert, mapGet, hk]
    · have ih := mapInsert_fst rest k v
      simp [mapInsert, mapGet, hk, ih]

theorem mapInsert_get_other [DecidableEq K] :
    ∀ (m : List (K × V)) (k : K) (v : V) (k' : K), k' ≠ k →
      mapGet (mapInsert m k v).2 k' = mapGet m k'
  | [], k, v, k', hne => by simp [mapGet, mapInsert, Ne.symm hne]
  | (k₀, v₀) :: rest, k, v, k', hne => by
    by_cases hk : k₀ = k
    · simp [mapInsert, mapGet, hk, Ne.symm hne]
    · have ih := mapInsert_get_other rest k v k' hne
      by_cases hk' : k₀ = k'
      · subst hk'
        simp [mapInsert, mapGet, hk]
      · simp [mapInsert, mapGet, hk, hk', ih]

/-! ## Growable text buffer (Rust `String`)

A buffer's content is a list of Unicode scalar values (codepoints); its
byte representation is the UTF-8 encoding of that list. -/

/-- Error raised by byte-range slicing that is out of bounds or off a
character boundary (a Rust panic). -/
inductive StrError where
  | invalidBoundary
deriving DecidableEq

/-- UTF-8 encoding of a single Unicode scalar value. -/
def utf8EncodeChar (c : Nat) : List Nat :=
  if c < 0x80 then [c]
  else if c < 0x800 then
    [0xC0 + c / 64, 0x80 + c % 64]
  else if c < 0x10000 then
    [0xE0 + c / 4096, 0x80 + c / 64 % 64, 0x80 + c % 64]
  else
    [0xF0 + c / 0x40000, 0x80 + c / 4096 % 64, 0x80 + c / 64 % 64, 0x80 + c % 64]

/-- UTF-8 encoding of a list of Unicode scalar values. -/
def utf8Encode : List Nat → List Nat
  | [] => []
  | c :: rest => utf8EncodeChar c ++ utf8Encode rest

/-- Rust `str::chars`: yields one Unicode scalar value per element. -/
def strChars (s : List Nat) : List Nat := s

/-- Rust `str::bytes`: yields the raw UTF-8 bytes one by one. -/
def strBytes (s : List Nat) : List Nat := utf8Encode s

/-- Number of elements yielded by character iteration. -/
def charCount (s : List Nat) : Nat := (strChars s).length

/-- Number of elements yielded by byte iteration (the byte length). -/
def byteCount (s : List Nat) : Nat := (strBytes s).length

/-- Rust `str::is_char_boundary` on a byte buffer: the end of the buffer
is a boundary, positions past it are not, and an interior position is a
boundary exactly when its byte is not a UTF-8 continuation byte. -/
def isCharBoundary (bytes : List Nat) (i : Nat) : Bool :=
  if i = bytes.length then true
  else
    match bytes.get? i with
    | some b => decide (b < 0x80 ∨ 0xC0 ≤ b)
    | none => false

/-- Rust byte-range slicing `&s[lo..hi]`: returns the bytes in the range
when both endpoints are in bounds and on character boundaries, and panics
(fatal `invalidBoundary`) otherwise. -/
def byteSlice (bytes : List Nat) (lo hi : Nat) : Except StrError (List Nat) :=
  if lo ≤ hi ∧ isCharBoundary bytes lo = true ∧ isCharBoundary bytes hi = true then
    Except.ok ((bytes.drop lo).take (hi - lo))
  else
    Except.error StrError.invalidBoundary

/-- Rust `String` concatenation `a + &b` at the value level: the bytes of
`a` followed by the bytes of `b`. -/
def strConcat (a b : List Nat) : List Nat := a ++ b

/-- Rust `String::push_str`: appends the slice's bytes to the buffer and
leaves the source slice unchanged; the pair returned is (new buffer,
source slice after the call). -/
def pushStr (buf slice : List Nat) : List Nat × List Nat :=
  (buf ++ slice, slice)

/-- Ownership state for the concatenation demo: the bindings `a` and `b`
hold `none` once moved out of. -/
structure MoveState where
  a : Option (List Nat)
  b : Option (List Nat)
  result : Option (List Nat)
deriving DecidableEq

/-- The concatenation `let result = a + &b`: consumes `a` by ownership
transfer (its binding becomes invalid), reads `b` by reference without
consuming it, and binds the concatenated buffer to `result`. -/
def concatMove (st : MoveState) : MoveState :=
  match st.a, st.b with
  | some av, some bv => ⟨none, some bv, some (strConcat av bv)⟩
  | _, _ => st

/-! ### Text lemmas -/

theorem utf8EncodeChar_length_pos (c : Nat) : 1 ≤ (utf8EncodeChar c).length := by
  unfold utf8EncodeChar
  repeat' split
  all_goals simp

theorem utf8EncodeChar_length_two {c : Nat} (h : 0x80 ≤ c) :
    2 ≤ (utf8EncodeChar c).length := by
  unfold utf8EncodeChar
  rw [if_neg (by omega)]
  repeat' split
  all_goals simp

theorem length_le_utf8Encode_length : ∀ s : List Nat, s.length ≤ (utf8Encode s).length
  | [] => le_refl _
  | c :: rest => by
    have h1 := utf8EncodeChar_length_pos c
    have h2 := length_le_utf8Encode_length rest
    simp only [utf8Encode, List.length_append, List.length_cons]
    omega

theorem charCount_lt_byteCount :
    ∀ s : List Nat, (∃ c, c ∈ s ∧ 0x80 ≤ c) → charCount s < byteCount s
  | [], h => by simp at h
  | c :: rest, h => by
    simp only [charCount, byteCount, strChars, strBytes, utf8Encode,
      List.length_append, List.length_cons]
    rcases h with ⟨c', hmem, hge⟩
    rcases List.mem_cons.mp hmem with hc | hc
    · subst hc
      have h1 := utf8EncodeChar_length_two hge
      have h2 := length_le_utf8Encode_length rest
      omega
    · have h1 := utf8EncodeChar_length_pos c
      have h2 := charCount_lt_byteCount rest ⟨c', hc, hge⟩
      simp only [charCount, byteCount, strChars, strBytes] at h2
      omega

theorem byteSlice_ok_boundaries (bytes : List Nat) (lo hi : Nat)
    (out : List Nat) (h : byteSlice bytes lo hi = Except.ok out) :
    isCharBoundary bytes lo = true ∧ isCharBoundary bytes hi = true := by
  unfold byteSlice at h
  split at h
  · next hc => exact ⟨hc.2.1, hc.2.2⟩
  · exact absurd h (by simp)

/-! ### Concrete demonstration values from `main.rs` -/

/-- Unicode scalar values of the literal `"Здравствуйте"`. -/
def zdravstvuyte : List Nat :=
  [0x417, 0x434, 0x440, 0x430, 0x432, 0x441, 0x442, 0x432, 0x443, 0x439, 0x442, 0x435]

/-- Unicode scalar values of the literal `"नमस्ते"`. -/
def namaste : List Nat := [0x928, 0x92E, 0x938, 0x94D, 0x924, 0x947]

/-- Bytes of the literal `"Hello, "` (all ASCII). -/
def helloBuf : List Nat := strBytes [72, 101, 108, 108, 111, 44, 32]

/-- Bytes of the literal `"world!"` (all ASCII). -/
def worldBuf : List Nat := strBytes [119, 111, 114, 108, 100, 33]

/-- Bytes of the literal `"Hello, world!"` (all ASCII). -/
def helloWorldBuf : List Nat :=
  strBytes [72, 101, 108, 108, 111, 44, 32, 119, 111, 114, 108, 100, 33]

/-- Bytes of the literal `"foo"`. -/
def fooBuf : List Nat := strBytes [102, 111, 111]

/-- Bytes of the literal `"bar"`. -/
def barBuf : List Nat := strBytes [98, 97, 114]

/-- Bytes of the literal `"foobar"`. -/
def foobarBuf : List Nat := strBytes [102, 111, 111, 98, 97, 114]

/-! ### Sequence lemmas -/

theorem vecPushAll_eq_append (xs : List α) : ∀ l : List α, vecPushAll l xs = l ++ xs := by
  induction xs with
  | nil => intro l; simp [vecPushAll]
  | cons x rest ih =>
    intro l
    have h := ih (vecPush l x)
    simp only [vecPushAll, List.foldl_cons, vecPush] at h ⊢
    rw [h]
    simp

/-! ## Claim theorems -/

/-- Claim C1: `entry_or_insert(k, default)` returns the existing value and
leaves the map unchanged when `k` is present, inserts `default` (returning
it) when `k` is absent, never overwrites an existing value for any key,
and on the map `{"Blue": "50"}`, `entry_or_insert("Blue", "10")` leaves
the value at `"50"`. -/
theorem entry_or_insert_contract :
    (∀ (m : List (String × String)) (k v d : String),
      mapGet m k = some v → mapEntryOrInsert m k d = (v, m)) ∧
    (∀ (m : List (String × String)) (k d : String),
      mapGet m k = none →
        (mapEntryOrInsert m k d).1 = d ∧
        mapGet (mapEntryOrInsert m k d).2 k = some d) ∧
    (∀ (m : List (String × String)) (k d k' v' : String),
      mapGet m k' = some v' → mapGet (mapEntryOrInsert m k d).2 k' = some v') ∧
    mapEntryOrInsert [("Blue", "50")] "Blue" "10" = ("50", [("Blue", "50")]) :=
  ⟨fun m k v d h => mapEntryOrInsert_present m k v d h,
   fun m k d h => mapEntryOrInsert_absent m k d h,
   fun m k d k' v' h => mapEntryOrInsert_preserves m k d k' v' h,
   by decide⟩

theorem entry_or_insert_contract_witness :
    mapEntryOrInsert [("Blue", "50")] "Blue" "10" = ("50", [("Blue", "50")]) :=
  entry_or_insert_contract.1 [("Blue", "50")] "Blue" "50" "10" (by decide)

/-- Claim C2: `insert(k, v)` always binds `k` to `v`, overwriting any
existing binding, and returns the previous value when present and `None`
when absent; on `{"Favorite Color": "Blue"}`, inserting `"Green"` makes
`get("Favorite Color")` equal `Some("Green")`. -/
theorem insert_overwrites :
    (∀ (m : List (String × String)) (k v : String),
      mapGet (mapInsert m k v).2 k = some v) ∧
    (∀ (m : List (String × String)) (k v : String),
      (mapInsert m k v).1 = mapGet m k) ∧
    mapGet (mapInsert [("Favorite Color", "Blue")] "Favorite Color" "Green").2
      "Favorite Color" = some "Green" :=
  ⟨fun m k v => mapInsert_get_self m k v,
   fun m k v => mapInsert_fst m k v,
   by decide⟩

/-- Claim C3: for every sequence and every index `i < length`, direct
indexed access and optional `get` access return the same element. -/
theorem index_get_agree (v : List Int) (i : Nat) (h : i < v.length) :
    ∃ x, vecIndex v i = Except.ok x ∧ vecGet v i = some x := by
  have hg : v.get? i = some (v.get ⟨i, h⟩) := List.get?_eq_get h
  refine ⟨v.get ⟨i, h⟩, ?_, ?_⟩
  · unfold vecIndex
    rw [hg]
  · unfold vecGet
    exact hg

theorem index_get_agree_witness :
    ∃ x, vecIndex ([1, 2, 3, 4, 5] : List Int) 2 = Except.ok x ∧
      vecGet ([1, 2, 3, 4, 5] : List Int) 2 = some x :=
  index_get_agree [1, 2, 3, 4, 5] 2 (by decide)

/-- Claim C4: for every sequence and every index `i >= length`, `get`
returns `none` and never fails, while direct indexing is fatal with an
`outOfRange` condition. -/
theorem out_of_range_behavior (v : List Int) (i : Nat) (h : v.length ≤ i) :
    vecGet v i = none ∧ vecIndex v i = Except.error VecError.outOfRange := by
  have hg : v.get? i = none := List.get?_eq_none.mpr h
  refine ⟨hg, ?_⟩
  unfold vecIndex
  rw [hg]

theorem out_of_range_behavior_witness :
    vecGet ([1, 2, 3, 4, 5] : List Int) 100 = none ∧
      vecIndex ([1, 2, 3, 4, 5] : List Int) 100 =
        Except.error VecError.outOfRange :=
  out_of_range_behavior [1, 2, 3, 4, 5] 100 (by decide)

/-- Claim C5: slicing the UTF-8 encoding of `"Здравствуйте"` over byte
range `[0,4)` yields the bytes of `"Зд"`; slicing over `[0,3)`, whose
right endpoint falls inside a 2-byte character, is fatal with an
`invalidBoundary` condition; and `byte_slice` succeeds only with both
endpoints on character boundaries, never silently splitting a character. -/
theorem byte_slice_boundary_claims :
    byteSlice (strBytes zdravstvuyte) 0 4 = Except.ok (strBytes [0x417, 0x434]) ∧
    byteSlice (strBytes zdravstvuyte) 0 3 = Except.error StrError.invalidBoundary ∧
    ∀ (bytes : List Nat) (lo hi : Nat) (out : List Nat),
      byteSlice bytes lo hi = Except.ok out →
        isCharBoundary bytes lo = true ∧ isCharBoundary bytes hi = true :=
  ⟨rfl, rfl, byteSlice_ok_boundaries⟩

theorem byte_slice_boundary_claims_witness :
    isCharBoundary (strBytes zdravstvuyte) 0 = true ∧
      isCharBoundary (strBytes zdravstvuyte) 4 = true :=
  byte_slice_boundary_claims.2.2 (strBytes zdravstvuyte) 0 4
    (strBytes [0x417, 0x434]) rfl

/-- Claim C6: concatenating the buffers built from `"Hello, "` and
`"world!"` yields a buffer equal to `"Hello, world!"` whose byte length is
the sum of the source byte lengths; the concatenation consumes the first
operand (its binding becomes invalid) and reads the second without
consuming it. -/
theorem concat_consumes_first :
    concatMove ⟨some helloBuf, some worldBuf, none⟩ =
      ⟨none, some worldBuf, some helloWorldBuf⟩ ∧
    strConcat helloBuf worldBuf = helloWorldBuf ∧
    (strConcat helloBuf worldBuf).length = helloBuf.length + worldBuf.length ∧
    ∀ a b : List Nat, (strConcat a b).length = a.length + b.length :=
  ⟨by decide, by decide, by decide, fun a b => List.length_append a b⟩

/-- Claim C7: appending `n` elements one by one to an empty sequence
yields a sequence of length `n`, and iterating over it yields exactly
those elements in append order. -/
theorem append_n_elements (xs : List Int) :
    vecPushAll [] xs = xs ∧ (vecPushAll [] xs).length = xs.length ∧
      vecIterate (vecPushAll [] xs) = xs := by
  have h := vecPushAll_eq_append xs ([] : List Int)
  simp only [List.nil_append] at h
  exact ⟨h, by rw [h], by rw [vecIterate, h]⟩

/-- Claim C8: character iteration and byte iteration produce different
counts on any string containing a non-ASCII character; in particular
`"नमस्ते"` yields 6 characters and strictly more than 6 bytes. -/
theorem char_byte_counts :
    (∀ s : List Nat, (∃ c, c ∈ s ∧ 0x80 ≤ c) → charCount s ≠ byteCount s) ∧
    charCount namaste = 6 ∧ 6 < byteCount namaste :=
  ⟨fun s h => Nat.ne_of_lt (charCount_lt_byteCount s h), by decide, by decide⟩

theorem char_byte_counts_witness : charCount namaste ≠ byteCount namaste :=
  char_byte_counts.1 namaste ⟨0x928, by decide, by decide⟩

/-- Claim C9: mutable iteration updates each element in place without
changing length or order: adding 50 to each element of `[100, 32, 57]`
yields exactly `[150, 82, 107]`. -/
theorem mutable_iteration :
    vecIterateMut ([100, 32, 57] : List Int) (fun x => x + 50) = [150, 82, 107] ∧
    ∀ (v : List Int) (f : Int → Int), (vecIterateMut v f).length = v.length :=
  ⟨by decide, fun v f => List.length_map v f⟩

/-- Claim C10: `push_str` appends the source slice to the buffer and
leaves the source slice unchanged and usable: after appending `"bar"` to
`"foo"` the buffer is `"foobar"` while the slice still equals `"bar"`. -/
theorem push_str_frame :
    pushStr fooBuf barBuf = (foobarBuf, barBuf) ∧
    ∀ buf slice : List Nat, (pushStr buf slice).2 = slice :=
  ⟨by decide, fun _ _ => rfl⟩

end RustCollections
